import Mathlib

/-
Verification development for the cache-benchmark program (src/main.cpp).

Modelling conventions (shallow embedding):
  * The memory arena is a total map `ℕ → ℕ` from slot index to slot value.
    Chain links, which the C++ program stores as raw addresses
    (`reinterpret_cast<std::uint64_t>(&a[j])`), are represented by the slot
    index `j`; pointer arithmetic `addr + k * sizeof(std::uint64_t)` becomes
    index arithmetic `j + k`.  This preserves the access pattern exactly
    (cf. the index-based representation the design notes recommend).
  * Durations (`std::chrono::duration<double>`) are rationals `ℚ`.  All the
    algorithms only add, subtract, divide and compare durations.
  * Machine integers are `ℕ`; the 2^64 wrap is applied explicitly in the
    generator `rngStep`, where the multiplication genuinely overflows.  All
    other quantities (strides, spots counts, byte counts) stay far below
    2^64 in every call the program makes, so plain `ℕ` arithmetic agrees
    with `std::uint64_t` there.
  * `std::cbrt` is kept abstract: the distance computation of
    `find_rest_spots` is parameterised by the transform `f : ℚ → ℚ` applied
    to each absolute difference.  The program instantiates `f` with the
    real cube root, which is injective; every statement below holds for
    arbitrary `f`.
-/

/-- Constant `page_size` from src/main.cpp line 15. -/
def page_size : ℕ := 16384

/-- Constant `max_discover_mem` (`1 << 15`) from src/main.cpp line 13. -/
def max_discover_mem : ℕ := 2 ^ 15

/-- Constant `max_check_mem` (`1 << 24`), the arena slot count, src/main.cpp line 14. -/
def max_check_mem : ℕ := 2 ^ 24

/-- Constant `initial_stride` from `main`, src/main.cpp line 360. -/
def initial_stride : ℕ := 2

/-- Width of one arena slot in bytes, `sizeof(std::uint64_t)`. -/
def slot_bytes : ℕ := 8

/-- Slot count of the `clutter` array, `1 << 23`, src/main.cpp line 62. -/
def clutter_slots : ℕ := 2 ^ 23

/-- Byte count requested by the `aligned_array` constructor, src/main.cpp
lines 39-47.  The conditional reproduces the source verbatim: when
`size * 8` is not a page multiple the request is
`(page_size / page_size + 1) * page_size`, a constant 32768 bytes. -/
def alloc_bytes (size : ℕ) : ℕ :=
  let bytes := size * slot_bytes
  if bytes % page_size ≠ 0 then (page_size / page_size + 1) * page_size else bytes

/-- One step of the linear-congruential generator `rng`, src/main.cpp
lines 67-72.  The function mutates the 64-bit seed and returns the new
seed; the multiplication wraps modulo 2^64. -/
def rngStep (s : ℕ) : ℕ := (s * 2862933555777941757 + 3037000493) % 2 ^ 64

/-- The sequence of values emitted by `rng` from a given seed:
`rngSeq seed n` is the value of the (n+1)-st call to `rng`. -/
def rngSeq (seed : ℕ) : ℕ → ℕ
  | 0 => rngStep seed
  | n + 1 => rngStep (rngSeq seed n)

/-- `std::swap(a[p], a[q])` on the arena map. -/
def swapSlots (a : ℕ → ℕ) (p q : ℕ) : ℕ → ℕ :=
  Function.update (Function.update a p (a q)) q (a p)

/-- The partner index `rng() % (i + 1)` chosen by `shuffle` for position `i`,
src/main.cpp line 78; `s` is the generator seed before the call. -/
def swapPartner (s i : ℕ) : ℕ := rngStep s % (i + 1)

/-- One iteration of the `shuffle` loop body, src/main.cpp line 78: the state
is the pair (arena, generator seed). -/
def shuffleStep (stride : ℕ) (st : (ℕ → ℕ) × ℕ) (i : ℕ) : (ℕ → ℕ) × ℕ :=
  (swapSlots st.1 (i * stride) (swapPartner st.2 i * stride), rngStep st.2)

/-- The descending index sequence `spots-1, spots-2, ..., 1` walked by the
`shuffle` loop, src/main.cpp line 76. -/
def shuffleIdx (spots : ℕ) : List ℕ := ((List.range (spots - 1)).reverse).map (· + 1)

/-- `shuffle(stride, spots)`, src/main.cpp lines 74-80, threading the
generator seed explicitly.  Returns the new arena and the new seed. -/
def shuffle (stride spots : ℕ) (a : ℕ → ℕ) (seed : ℕ) : (ℕ → ℕ) × ℕ :=
  (shuffleIdx spots).foldl (shuffleStep stride) (a, seed)

/-- `create_forward_chain(stride, spots)`, src/main.cpp lines 82-92: slots
`i * stride` for `i < spots - 1` receive the location of the next anchor,
then slot `stride * spots - stride` receives the location of `a[0]`. -/
def create_forward_chain (stride spots : ℕ) (a : ℕ → ℕ) : ℕ → ℕ :=
  Function.update
    ((List.range (spots - 1)).foldl
      (fun arr i => Function.update arr (i * stride) ((i + 1) * stride)) a)
    (stride * spots - stride) 0

/-- One iteration of the half-slot write loop of `measure_shuffled`,
src/main.cpp lines 132-135: slot `i*stride + stride/2` receives the value of
the anchor plus `(stride/2) * sizeof(std::uint64_t)` bytes, i.e. `stride/2`
slots in the index representation. -/
def halfWrite (stride : ℕ) (arr : ℕ → ℕ) (i : ℕ) : ℕ → ℕ :=
  Function.update arr (i * stride + stride / 2) (arr (i * stride) + stride / 2)

/-- The arena state (and final seed) produced by the pattern-building part of
`measure_shuffled(stride, spots)`, src/main.cpp lines 127-138: forward chain,
Fisher-Yates shuffle driven by the seed, then the half-slot writes. -/
def build_shuffled (stride spots : ℕ) (a : ℕ → ℕ) (seed : ℕ) : (ℕ → ℕ) × ℕ :=
  let sh := shuffle stride spots (create_forward_chain stride spots a) seed
  ((List.range spots).foldl (halfWrite stride) sh.1, sh.2)

/-- Constant `lookbehind_offset` from `measure_lookbehind`, src/main.cpp line 142. -/
def lookbehind_offset : ℕ := 16

/-- One iteration of the lookbehind rewiring loop, src/main.cpp lines 146-152:
the target slot a fixed node-count behind receives the node's next-pointer,
and the node is redirected to the target.  (`i + spots - 16` never
underflows in the program: every call has `spots ≥ 2^17`.) -/
def lookWrite (stride spots : ℕ) (arr : ℕ → ℕ) (i : ℕ) : ℕ → ℕ :=
  let behind := ((i + spots - lookbehind_offset) % spots) * stride + stride / 2
  Function.update (Function.update arr behind (arr (i * stride))) (i * stride) behind

/-- The arena state produced by the pattern-building part of
`measure_lookbehind(stride, spots)`, src/main.cpp lines 140-155. -/
def build_lookbehind (stride spots : ℕ) (a : ℕ → ℕ) : ℕ → ℕ :=
  (List.range spots).foldl (lookWrite stride spots) (create_forward_chain stride spots a)

/-- The seed `spots + i` installed by `measure` before each pattern build,
src/main.cpp line 208. -/
def measure_seed (spots iter : ℕ) : ℕ := spots + iter

/-- `next_spots(stride, spots)`, src/main.cpp lines 157-173. -/
def next_spots (stride spots : ℕ) : ℕ :=
  let step := 2 ^ 9
  if spots * stride ≤ step then spots * 2
  else if stride > step then spots + 1
  else spots + step / stride

/-- `median(container)`, src/main.cpp lines 175-180: sort, take the element
at index `size / 2`. -/
def median (l : List ℚ) : ℚ := (l.insertionSort (· ≤ ·)).getD (l.length / 2) 0

/-- `sum(container)`, src/main.cpp lines 182-191: the first element plus the
rest, left to right.  (The program never calls it on an empty container.) -/
def sumDur : List ℚ → ℚ
  | [] => 0
  | x :: xs => xs.foldl (· + ·) x

/-- The smoothed-suffix list of `find_jump`, src/main.cpp lines 287-298:
starting from the per-spots totals, fold from the end backward with
`smoothed[i] = totals[i] * 0.5 + smoothed[i+1] * 0.5`. -/
def smoothSuffix : List ℚ → List ℚ
  | [] => []
  | [x] => [x]
  | x :: y :: rest =>
    let s := smoothSuffix (y :: rest)
    (x * (1/2) + s.headI * (1/2)) :: s

/-- The scan loop of `find_jump`, src/main.cpp lines 308-321, consuming the
spots values, their totals and the smoothed suffix in lockstep: at each
position compare the next total and the next smoothed value against the
current total, returning the current spots value on the first hit and the
sentinel 0 when the scan runs out. -/
def jumpScan : List ℕ → List ℚ → List ℚ → ℕ
  | s :: sp, t :: t' :: ts, _ :: m' :: ms =>
    if (209/200 : ℚ) ≤ t' / t ∧ (28/25 : ℚ) ≤ m' / t then s
    else jumpScan sp (t' :: ts) (m' :: ms)
  | _, _, _ => 0

/-- `find_jump` after the per-spots totals have been computed: scan the
totals together with their smoothed suffix. -/
def findJumpTotals (sp : List ℕ) (totals : List ℚ) : ℕ :=
  jumpScan sp totals (smoothSuffix totals)

/-- `find_jump(initial_stride, search_spots)`, src/main.cpp lines 283-322, as
a function of the measured duration lists: first the per-spots totals
`sum(measured[spots])`, then the smoothed-suffix scan. -/
def find_jump (sp : List ℕ) (measured : ℕ → List ℚ) : ℕ :=
  findJumpTotals sp (sp.map fun s => sumDur (measured s))

/-- Constant `min_stride` of `find_cache_line_size`, src/main.cpp line 326. -/
def min_stride : ℕ := 2

/-- Constant `max_stride` of `find_cache_line_size`, src/main.cpp line 327. -/
def max_stride : ℕ := 128

/-- The selection loop of `find_cache_line_size`, src/main.cpp lines 340-353:
`i` walks the per-stride medians from index 1, the state is the pair
(cache_line_stride, max_speedup), and an update fires whenever the
median-to-previous-median ratio reaches the maximum seen so far.  The first
argument is structural fuel; `fcls_select` supplies enough for the whole
walk, so the `i < length` test alone ends the loop, exactly as in the
source. -/
def fcls_loop (results : List ℚ) : ℕ → ℕ → ℕ × ℚ → ℕ × ℚ
  | 0, _, st => st
  | fuel + 1, i, st =>
    if i < results.length then
      let ratio := results.getD i 0 / results.getD (i - 1) 0
      fcls_loop results fuel (i + 1)
        (if st.2 ≤ ratio then ((min_stride <<< i) / 2, ratio) else st)
    else st

/-- The stride selected by `find_cache_line_size` from the per-stride median
list: run the selection loop from index 1 with the initial state
`cache_line_stride = 1`, `max_speedup = 1.0` (src/main.cpp lines 340-341)
and return the stride component. -/
def fcls_select (results : List ℚ) : ℕ :=
  (fcls_loop results results.length 1 (1, 1)).1

/-- The doubling stride sweep `for (stride = s; stride <= max_stride;
stride *= 2)` of src/main.cpp line 331.  The first argument is structural
fuel; `max_stride + 1` steps are more than any run can take, so the
`s ≤ max_stride` test alone ends the loop. -/
def strideSweepAux : ℕ → ℕ → List ℕ
  | 0, _ => []
  | fuel + 1, s => if s ≤ max_stride then s :: strideSweepAux fuel (2 * s) else []

/-- The list of strides visited by the sweep of `find_cache_line_size`
starting at `s`. -/
def strideSweep (s : ℕ) : List ℕ := strideSweepAux (max_stride + 1) s

/-- `find_cache_line_size()`, src/main.cpp lines 324-356, as a function of
the per-stride trial duration lists: per visited stride take the median of
its trials, then run the maximum-speedup selection. -/
def find_cache_line_size (measured : ℕ → List ℚ) : ℕ :=
  fcls_select ((strideSweep min_stride).map fun stride => median (measured stride))

/-- One iteration of the distance loop of `find_rest_spots`, src/main.cpp
lines 251-260.  `f` stands for the `std::cbrt` transform applied to each
absolute difference; the accumulator is (full_distance, half_distance).
The full distance reads the new curve at `spots` itself, the half distance
at `spots / 2 + spots % 2`. -/
def rest_dist_step (f : ℚ → ℚ) (prevM newM : ℕ → List ℚ) (acc : ℚ × ℚ) (spots : ℕ) : ℚ × ℚ :=
  (acc.1 + f |sumDur (prevM spots) - sumDur (newM spots)|,
   acc.2 + f |sumDur (prevM spots) - sumDur (newM (spots / 2 + spots % 2))|)

/-- The (full_distance, half_distance) pair accumulated by `find_rest_spots`
over the original spots sequence, src/main.cpp lines 249-260. -/
def rest_distances (f : ℚ → ℚ) (prevM newM : ℕ → List ℚ) (all_spots : List ℕ) : ℚ × ℚ :=
  all_spots.foldl (rest_dist_step f prevM newM) (0, 0)

/-- The stopping test `full_distance < half_distance` of `find_rest_spots`,
src/main.cpp line 263. -/
def rest_stop (f : ℚ → ℚ) (prevM newM : ℕ → List ℚ) (all_spots : List ℕ) : Prop :=
  (rest_distances f prevM newM all_spots).1 < (rest_distances f prevM newM all_spots).2

/-- The half distance as claim C2 words it: the new curve is read at the
spots value halved rounded down, clamped to at least 1.  This definition
follows the claim text, for comparison against `rest_distances` which
follows the source. -/
def half_distance_claimed (f : ℚ → ℚ) (prevM newM : ℕ → List ℚ) (all_spots : List ℕ) : ℚ :=
  (all_spots.map fun s => f |sumDur (prevM s) - sumDur (newM (max (s / 2) 1))|).sum

/-- Decimal rendering of a natural number as `std::ostream` prints a
`std::uint64_t`: most significant digit first, and "0" for zero. -/
def natDigits (n : ℕ) : List Char :=
  if n = 0 then ['0'] else ((Nat.digits 10 n).map Nat.digitChar).reverse

/-- The single line `main` writes to standard output, src/main.cpp
lines 373-376, as a character stream: the three key=value fields in order,
separated by single spaces, terminated by one newline.  `jump` is the
capacity-boundary spots value, `fst` the first element of the returned
spots sequence, `cls` the discovered line-size stride. -/
def mainOutput (jump fst cls : ℕ) : List Char :=
  "associativity=".toList ++ natDigits (jump / fst)
    ++ " cache_size=".toList ++ natDigits (jump * initial_stride * slot_bytes)
    ++ " cache_line_size=".toList ++ natDigits (cls * slot_bytes) ++ ['\n']

/-- The standard-output line of the whole program as a function of the
returned spots sequence and the measured durations: `main` prints
`find_jump`'s result over the first spots value, the size product, and the
line-size result, src/main.cpp lines 366-376. -/
def main_output_line (rest_spots : List ℕ) (jumpMeas clsMeas : ℕ → List ℚ) : List Char :=
  mainOutput (find_jump rest_spots jumpMeas) rest_spots.headI (find_cache_line_size clsMeas)

/-- Every character of the decimal rendering is a digit. -/
theorem natDigits_isDigit (n : ℕ) : ∀ c ∈ natDigits n, c.isDigit = true := by
  intro c hc
  unfold natDigits at hc
  split at hc
  · simp only [List.mem_singleton] at hc
    subst hc; decide
  · simp only [List.mem_reverse, List.mem_map] at hc
    obtain ⟨d, hd, rfl⟩ := hc
    have h10 : d < 10 := Nat.digits_lt_base (by norm_num) hd
    interval_cases d <;> decide

/-- The decimal rendering contains no newline. -/
theorem natDigits_count_newline (n : ℕ) : (natDigits n).count '\n' = 0 := by
  refine List.count_eq_zero.mpr fun h => ?_
  have := natDigits_isDigit n _ h
  exact absurd this (by decide)

/-- The decimal rendering contains no space. -/
theorem natDigits_count_space (n : ℕ) : (natDigits n).count ' ' = 0 := by
  refine List.count_eq_zero.mpr fun h => ?_
  have := natDigits_isDigit n _ h
  exact absurd this (by decide)

/-- Claim C5: `next_spots` doubles the spots count while the footprint
`spots * stride` stays within 512 slots, advances by one slot when the
stride alone exceeds 512, and otherwise advances by `512 / stride`; the
three literal evaluations of the growth rule hold. -/
theorem c5_next_spots :
    (∀ stride spots : ℕ, spots * stride ≤ 512 → next_spots stride spots = spots * 2) ∧
    (∀ stride spots : ℕ, ¬ spots * stride ≤ 512 → 512 < stride →
      next_spots stride spots = spots + 1) ∧
    (∀ stride spots : ℕ, ¬ spots * stride ≤ 512 → ¬ 512 < stride →
      next_spots stride spots = spots + 512 / stride) ∧
    next_spots 256 1 = 2 ∧ next_spots 1024 10 = 11 ∧ next_spots 64 100 = 108 := by
  refine ⟨?_, ?_, ?_, by decide, by decide, by decide⟩
  · intro stride spots h
    simp only [next_spots]
    norm_num [h]
  · intro stride spots h h'
    simp only [next_spots]
    norm_num [h, h']
  · intro stride spots h h'
    simp only [next_spots]
    norm_num [h, h']

/-- Witness for claim C5 at the literal inputs of the growth rule. -/
theorem c5_next_spots_witness :
    (1 * 256 ≤ 512 ∧ next_spots 256 1 = 1 * 2) ∧
    (¬ 10 * 1024 ≤ 512 ∧ 512 < 1024 ∧ next_spots 1024 10 = 10 + 1) ∧
    (¬ 100 * 64 ≤ 512 ∧ ¬ 512 < 64 ∧ next_spots 64 100 = 100 + 512 / 64) :=
  ⟨⟨by norm_num, c5_next_spots.1 256 1 (by norm_num)⟩,
   ⟨by norm_num, by norm_num, c5_next_spots.2.1 1024 10 (by norm_num) (by norm_num)⟩,
   ⟨by norm_num, by norm_num, c5_next_spots.2.2.1 64 100 (by norm_num) (by norm_num)⟩⟩

/-- Claim C10: the `aligned_array` constructor requests `size * 8` bytes
when that is a page multiple and otherwise a constant 32768 bytes (the
conditional's replacement value folds to `2 * page_size` regardless of
`size`); both global arrays fall in the first case. -/
theorem c10_alloc_bytes :
    (∀ size : ℕ, size * slot_bytes % page_size = 0 → alloc_bytes size = size * slot_bytes) ∧
    (∀ size : ℕ, size * slot_bytes % page_size ≠ 0 → alloc_bytes size = 32768) ∧
    alloc_bytes clutter_slots = clutter_slots * slot_bytes ∧
    alloc_bytes max_check_mem = max_check_mem * slot_bytes := by
  have h1 : ∀ size : ℕ, size * slot_bytes % page_size = 0 → alloc_bytes size = size * slot_bytes := by
    intro size h
    simp [alloc_bytes, h]
  refine ⟨h1, ?_, ?_, ?_⟩
  · intro size h
    simp only [alloc_bytes]
    rw [if_pos h]
    norm_num [page_size]
  · exact h1 _ (by norm_num [clutter_slots, slot_bytes, page_size])
  · exact h1 _ (by norm_num [max_check_mem, slot_bytes, page_size])

/-- Witness for claim C10: one size in each branch of the byte computation. -/
theorem c10_alloc_bytes_witness :
    (2048 * slot_bytes % page_size = 0 ∧ alloc_bytes 2048 = 2048 * slot_bytes) ∧
    (1 * slot_bytes % page_size ≠ 0 ∧ alloc_bytes 1 = 32768) :=
  ⟨⟨by norm_num [slot_bytes, page_size],
    c10_alloc_bytes.1 2048 (by norm_num [slot_bytes, page_size])⟩,
   ⟨by norm_num [slot_bytes, page_size],
    c10_alloc_bytes.2.1 1 (by norm_num [slot_bytes, page_size])⟩⟩

/-- Claim C3: the program's standard-output line consists of exactly the
three key=value fields `associativity=`, `cache_size=`, `cache_line_size=`
in order, separated by single spaces and ended by the only newline, where
the printed integers are the capacity-boundary spots value over the first
returned spots value, that boundary times the initial stride times the
8-byte slot width, and the line-size stride times the slot width. -/
theorem c3_output_line (rest_spots : List ℕ) (jumpMeas clsMeas : ℕ → List ℚ) :
    main_output_line rest_spots jumpMeas clsMeas =
      ("associativity=".toList
          ++ natDigits (find_jump rest_spots jumpMeas / rest_spots.headI))
        ++ [' ']
        ++ ("cache_size=".toList
          ++ natDigits (find_jump rest_spots jumpMeas * initial_stride * slot_bytes))
        ++ [' ']
        ++ ("cache_line_size=".toList
          ++ natDigits (find_cache_line_size clsMeas * slot_bytes))
        ++ ['\n'] ∧
    (main_output_line rest_spots jumpMeas clsMeas).count '\n' = 1 ∧
    (main_output_line rest_spots jumpMeas clsMeas).count ' ' = 2 := by
  refine ⟨?_, ?_, ?_⟩
  · simp [main_output_line, mainOutput, List.append_assoc]
  · simp [main_output_line, mainOutput, List.count_append,
      natDigits_count_newline]
  · simp [main_output_line, mainOutput, List.count_append,
      natDigits_count_space]

/-- The distance fold of `find_rest_spots` computes, in each component, the
sum of the transformed absolute differences over the spots list. -/
theorem rest_distances_foldl (f : ℚ → ℚ) (prevM newM : ℕ → List ℚ) :
    ∀ (l : List ℕ) (acc : ℚ × ℚ),
      l.foldl (rest_dist_step f prevM newM) acc =
        (acc.1 + (l.map fun s => f |sumDur (prevM s) - sumDur (newM s)|).sum,
         acc.2 + (l.map fun s => f |sumDur (prevM s) - sumDur (newM (s / 2 + s % 2))|).sum)
  | [], acc => by simp
  | s :: rest, acc => by
    rw [List.foldl_cons, rest_distances_foldl f prevM newM rest]
    simp [rest_dist_step, add_assoc]

/-- Claim C2 as amended: in `find_rest_spots` the half distance reads the
new-stride curve at the spots value halved rounded UP, `s / 2 + s % 2 =
⌈s/2⌉` (which is at least 1 for `s ≥ 1`), not rounded down; each distance
component is the sum over the original spots sequence of the transformed
absolute differences, and the stopping test compares the two sums. -/
theorem c2_half_distance :
    (∀ (f : ℚ → ℚ) (prevM newM : ℕ → List ℚ) (all_spots : List ℕ),
      rest_distances f prevM newM all_spots =
        ((all_spots.map fun s => f |sumDur (prevM s) - sumDur (newM s)|).sum,
         (all_spots.map fun s => f |sumDur (prevM s) - sumDur (newM (s / 2 + s % 2))|).sum)) ∧
    (∀ s : ℕ, 1 ≤ s → s / 2 + s % 2 = (s + 1) / 2 ∧ 1 ≤ s / 2 + s % 2) ∧
    (∀ (f : ℚ → ℚ) (prevM newM : ℕ → List ℚ) (all_spots : List ℕ),
      rest_stop f prevM newM all_spots ↔
        (all_spots.map fun s => f |sumDur (prevM s) - sumDur (newM s)|).sum <
          (all_spots.map fun s => f |sumDur (prevM s) - sumDur (newM (s / 2 + s % 2))|).sum) := by
  have hmain : ∀ (f : ℚ → ℚ) (prevM newM : ℕ → List ℚ) (all_spots : List ℕ),
      rest_distances f prevM newM all_spots =
        ((all_spots.map fun s => f |sumDur (prevM s) - sumDur (newM s)|).sum,
         (all_spots.map fun s => f |sumDur (prevM s) - sumDur (newM (s / 2 + s % 2))|).sum) := by
    intro f prevM newM all_spots
    rw [rest_distances, rest_distances_foldl]
    simp
  refine ⟨hmain, ?_, ?_⟩
  · intro s hs
    omega
  · intro f prevM newM all_spots
    rw [rest_stop, hmain]

/-- Witness for claim C2's amended statement: the rounding identity at an
odd spots value, and the distance pair at a concrete measurement map. -/
theorem c2_half_distance_witness :
    (1 ≤ 5 ∧ (5 / 2 + 5 % 2 = (5 + 1) / 2 ∧ 1 ≤ 5 / 2 + 5 % 2)) ∧
    rest_distances id (fun _ => [0]) (fun n => if n = 2 then [1] else [0]) [3] =
      (([3].map fun s =>
          id |sumDur ((fun _ : ℕ => [(0 : ℚ)]) s)
            - sumDur ((fun n => if n = 2 then [(1 : ℚ)] else [0]) s)|).sum,
       ([3].map fun s =>
          id |sumDur ((fun _ : ℕ => [(0 : ℚ)]) s)
            - sumDur ((fun n => if n = 2 then [(1 : ℚ)] else [0]) (s / 2 + s % 2))|).sum) :=
  ⟨⟨by decide, c2_half_distance.2.1 5 (by decide)⟩,
   c2_half_distance.1 id (fun _ => [0]) (fun n => if n = 2 then [1] else [0]) [3]⟩

/-- Counterexample to claim C2 as stated: at the odd spots value 3 the code
reads the new-stride curve at `3 / 2 + 3 % 2 = 2` (rounded up), while the
claim's "halved rounded down (to at least 1)" would read it at 1; with a
new curve that differs between those two keys the half distances differ. -/
theorem c2_counterexample :
    (rest_distances id (fun _ => [0]) (fun n => if n = 2 then [1] else [0]) [3]).2 ≠
      half_distance_claimed id (fun _ => [0]) (fun n => if n = 2 then [1] else [0]) [3] := by
  norm_num [rest_distances, rest_dist_step, half_distance_claimed, sumDur]

/-- The selection loop of `find_cache_line_size` keeps its state unchanged
once every remaining ratio is below the recorded maximum speedup. -/
theorem fcls_loop_stable (results : List ℚ) :
    ∀ (fuel i : ℕ) (st : ℕ × ℚ),
      (∀ j, i ≤ j → j < results.length →
        results.getD j 0 / results.getD (j - 1) 0 < st.2) →
      fcls_loop results fuel i st = st
  | 0, _, _, _ => rfl
  | fuel + 1, i, st, h => by
    simp only [fcls_loop]
    split
    · next hi =>
      rw [if_neg (not_le.mpr (h i le_rfl hi))]
      exact fcls_loop_stable results fuel (i + 1) st fun j hj hjl => h j (by omega) hjl
    · rfl

/-- The selection loop of `find_cache_line_size` lands on the position of
the maximal ratio: if position `istar` carries the greatest ratio, bounds
every other ratio, and strictly bounds every later one, the loop started at
or before `istar` with a recorded speedup not above that ratio returns the
half-stride of position `istar`. -/
theorem fcls_loop_hits (results : List ℚ) (istar : ℕ)
    (hlen : istar < results.length)
    (hmax : ∀ j, 1 ≤ j → j < results.length →
      results.getD j 0 / results.getD (j - 1) 0 ≤
        results.getD istar 0 / results.getD (istar - 1) 0)
    (hafter : ∀ j, istar < j → j < results.length →
      results.getD j 0 / results.getD (j - 1) 0 <
        results.getD istar 0 / results.getD (istar - 1) 0) :
    ∀ (fuel i : ℕ) (st : ℕ × ℚ),
      results.length - i ≤ fuel → i ≤ istar → 1 ≤ i →
      st.2 ≤ results.getD istar 0 / results.getD (istar - 1) 0 →
      (fcls_loop results fuel i st).1 = (min_stride <<< istar) / 2
  | 0, i, st, hfuel, hile, _, _ => absurd hfuel (by omega)
  | fuel + 1, i, st, hfuel, hile, h1i, hst => by
    have hi : i < results.length := by omega
    simp only [fcls_loop, if_pos hi]
    rcases eq_or_lt_of_le hile with rfl | hlt
    · rw [if_pos hst]
      rw [fcls_loop_stable results fuel (i + 1) _ fun j hj hjl => hafter j (by omega) hjl]
    · split
      · next hcond =>
        exact fcls_loop_hits results istar hlen hmax hafter fuel (i + 1)
          ((min_stride <<< i) / 2, results.getD i 0 / results.getD (i - 1) 0)
          (by omega) (by omega) (by omega) (hmax i h1i hi)
      · exact fcls_loop_hits results istar hlen hmax hafter fuel (i + 1) st
          (by omega) (by omega) (by omega) hst

/-- Claim C4: `find_cache_line_size` sweeps the doubling strides 2..128,
takes the per-stride median (sort, middle element), and returns half of the
stride whose median-to-previous-median ratio is the maximum seen (at least
1, ties broken toward the larger stride); the sweep position `i` carries
stride `2 <<< i`, and on the synthetic medians [10,10,10,40,40] the result
is 8. -/
theorem c4_find_cache_line_size :
    strideSweep min_stride = [2, 4, 8, 16, 32, 64, 128] ∧
    (∀ i, i < 7 → (strideSweep min_stride).getD i 0 = min_stride <<< i) ∧
    median [5, 1, 3] = 3 ∧ median [4, 2, 6, 1] = 4 ∧
    (∀ (results : List ℚ) (istar : ℕ),
      1 ≤ istar → istar < results.length →
      1 ≤ results.getD istar 0 / results.getD (istar - 1) 0 →
      (∀ j, 1 ≤ j → j < results.length →
        results.getD j 0 / results.getD (j - 1) 0 ≤
          results.getD istar 0 / results.getD (istar - 1) 0) →
      (∀ j, istar < j → j < results.length →
        results.getD j 0 / results.getD (j - 1) 0 <
          results.getD istar 0 / results.getD (istar - 1) 0) →
      fcls_select results = (min_stride <<< istar) / 2) ∧
    fcls_select [10, 10, 10, 40, 40] = 8 := by
  refine ⟨by decide, ?_, by decide, by decide, ?_, ?_⟩
  · intro i hi
    interval_cases i <;> decide
  · intro results istar h1 h2 h3 h4 h5
    exact fcls_loop_hits results istar h2 h4 h5 results.length 1 (1, 1)
      (by omega) h1 le_rfl h3
  · norm_num [fcls_select, fcls_loop, min_stride, Nat.shiftLeft_eq]

/-- Witness for claim C4's selection property on the synthetic medians,
with the maximal ratio at sweep position 3 (stride 16, half-stride 8). -/
theorem c4_find_cache_line_size_witness :
    fcls_select [10, 10, 10, 40, 40] = (min_stride <<< 3) / 2 :=
  c4_find_cache_line_size.2.2.2.2.1 [10, 10, 10, 40, 40] 3 (by norm_num) (by norm_num)
    (by norm_num)
    (fun j h1 h2 => by
      norm_num at h2
      interval_cases j <;> norm_num)
    (fun j h1 h2 => by
      norm_num at h2
      interval_cases j <;> norm_num)

/-- The smoothed suffix has the same length as the totals list. -/
theorem smoothSuffix_length : ∀ l : List ℚ, (smoothSuffix l).length = l.length
  | [] => rfl
  | [_] => rfl
  | x :: y :: rest => by
    have ih := smoothSuffix_length (y :: rest)
    simp only [smoothSuffix, List.length_cons] at ih ⊢
    omega

/-- Unfolding equation of `smoothSuffix` on a list with at least two
elements. -/
theorem smoothSuffix_cons₂ (x y : ℚ) (rest : List ℚ) :
    smoothSuffix (x :: y :: rest) =
      (x * (1/2) + (smoothSuffix (y :: rest)).headI * (1/2)) :: smoothSuffix (y :: rest) := rfl

/-- Unfolding equation of `smoothSuffix` on any list with a nonempty tail. -/
theorem smoothSuffix_cons (x : ℚ) (l : List ℚ) (h : l ≠ []) :
    smoothSuffix (x :: l) =
      (x * (1/2) + (smoothSuffix l).headI * (1/2)) :: smoothSuffix l := by
  obtain ⟨y, rest, rfl⟩ := List.exists_cons_of_ne_nil h
  exact smoothSuffix_cons₂ x y rest

/-- The smoothed suffix of a nonempty list is nonempty. -/
theorem smoothSuffix_ne_nil (l : List ℚ) (h : l ≠ []) : smoothSuffix l ≠ [] := by
  intro hc
  have := smoothSuffix_length l
  rw [hc] at this
  exact h (List.length_eq_zero.mp this.symm)

/-- Smoothing preserves a uniform lower bound: every smoothed value is a
convex combination of totals at or after its position. -/
theorem smoothSuffix_lower (c : ℚ) : ∀ l : List ℚ,
    (∀ x ∈ l, c ≤ x) → ∀ x ∈ smoothSuffix l, c ≤ x
  | [], _, x, hx => by simp [smoothSuffix] at hx
  | [a], h, x, hx => by
    simp only [smoothSuffix, List.mem_singleton] at hx
    exact hx ▸ h a (by simp)
  | a :: b :: rest, h, x, hx => by
    have hin : ∀ y ∈ smoothSuffix (b :: rest), c ≤ y :=
      smoothSuffix_lower c (b :: rest) fun y hy => h y (List.mem_cons_of_mem a hy)
    rw [smoothSuffix_cons₂] at hx
    rcases List.mem_cons.mp hx with rfl | hx'
    · obtain ⟨z, zs, hz⟩ :=
        List.exists_cons_of_ne_nil (smoothSuffix_ne_nil (b :: rest) (by simp))
      have hhead : c ≤ (smoothSuffix (b :: rest)).headI := by
        rw [hz, List.headI_cons]
        exact hin z (by rw [hz]; exact List.mem_cons_self z zs)
      have ha : c ≤ a := h a (by simp)
      linarith
    · exact hin x hx'

/-- A constant totals list is a fixed point of the smoothing fold. -/
theorem smoothSuffix_replicate (c : ℚ) : ∀ m : ℕ,
    smoothSuffix (List.replicate m c) = List.replicate m c
  | 0 => rfl
  | 1 => rfl
  | m + 2 => by
    have ih := smoothSuffix_replicate c (m + 1)
    have hrep : List.replicate (m + 2) c = c :: c :: List.replicate m c := rfl
    have hrep1 : List.replicate (m + 1) c = c :: List.replicate m c := rfl
    rw [hrep, smoothSuffix_cons₂, ← hrep1, ih, hrep1]
    simp only [List.headI]
    have : c * (1/2) + c * (1/2) = c := by ring
    rw [this]

/-- The position-wise recurrence of the smoothed suffix, exactly as the
backward fold of src/main.cpp lines 294-298 writes it. -/
theorem smoothSuffix_getD : ∀ (t : List ℚ) (i : ℕ), i + 1 < t.length →
    (smoothSuffix t).getD i 0 =
      t.getD i 0 * (1/2) + (smoothSuffix t).getD (i + 1) 0 * (1/2)
  | [], i, h => by simp at h
  | [_], i, h => by simp at h
  | x :: y :: rest, 0, _ => by
    rw [smoothSuffix_cons₂]
    have hne : smoothSuffix (y :: rest) ≠ [] := smoothSuffix_ne_nil _ (by simp)
    obtain ⟨z, zs, hz⟩ := List.exists_cons_of_ne_nil hne
    rw [hz]
    simp [List.headI]
  | x :: y :: rest, i + 1, h => by
    rw [smoothSuffix_cons₂]
    simp only [List.getD_cons_succ]
    exact smoothSuffix_getD (y :: rest) i (by simpa using h)

/-- Unfolding equation of the `find_jump` scan on aligned nonempty lists. -/
theorem jumpScan_cons (s : ℕ) (sp : List ℕ) (t t' : ℚ) (ts : List ℚ)
    (m m' : ℚ) (ms : List ℚ) :
    jumpScan (s :: sp) (t :: t' :: ts) (m :: m' :: ms) =
      if (209/200 : ℚ) ≤ t' / t ∧ (28/25 : ℚ) ≤ m' / t then s
      else jumpScan sp (t' :: ts) (m' :: ms) := rfl

/-- On an all-ones totals curve the scan never fires: every immediate ratio
is 1, below the 1.045 threshold, so the sentinel 0 comes back. -/
theorem jumpScan_ones : ∀ (m : ℕ) (sp : List ℕ),
    jumpScan sp (List.replicate m 1) (List.replicate m 1) = 0
  | 0, sp => by cases sp <;> rfl
  | 1, sp => by cases sp <;> rfl
  | _ + 2, [] => rfl
  | m + 2, s :: sp => by
    have hrep : (List.replicate (m + 2) (1 : ℚ)) = 1 :: 1 :: List.replicate m 1 := rfl
    rw [hrep, jumpScan_cons, if_neg (by norm_num)]
    have hrep1 : (1 : ℚ) :: List.replicate m 1 = List.replicate (m + 1) 1 := rfl
    rw [hrep1]
    exact jumpScan_ones (m + 1) sp

/-- Scanning from the spike position itself never fires: the ratio of the
baseline behind the spike to the spike is below 1. -/
theorem jumpScan_spike_tail (v : ℚ) (hv : (209/200 : ℚ) ≤ v) (m : ℕ) (hm : 1 ≤ m)
    (sp : List ℕ) :
    jumpScan sp (v :: List.replicate m 1) (smoothSuffix (v :: List.replicate m 1)) = 0 := by
  obtain ⟨mm, rfl⟩ : ∃ mm, m = mm + 1 := ⟨m - 1, by omega⟩
  have hsm : smoothSuffix (v :: List.replicate (mm + 1) 1) =
      (v * (1/2) + 1 * (1/2)) :: List.replicate (mm + 1) 1 := by
    rw [smoothSuffix_cons v _ (by simp), smoothSuffix_replicate]
    rfl
  cases sp with
  | nil => rw [hsm]; rfl
  | cons s sp' =>
    have hrep : List.replicate (mm + 1) (1 : ℚ) = 1 :: List.replicate mm 1 := rfl
    rw [hsm, hrep, jumpScan_cons]
    rw [if_neg ?hcond]
    case hcond =>
      rintro ⟨h1, -⟩
      have hv0 : (0 : ℚ) < v := by linarith
      have h2 : 1 / v ≤ 1 := by
        rw [div_le_one hv0]; linarith
      linarith
    rw [← hrep]
    exact jumpScan_ones (mm + 1) sp'

/-- Step-curve scenario of `find_jump`: totals flat at 1 for the first `k`
positions, then everything at least 6/5 (the spec's "jumping to 1.2 and
staying at or above 1.2"); the scan fires exactly at position `k - 1`, the
last flat one. -/
theorem findJump_step (tail : List ℚ) (htail : ∀ x ∈ tail, (6/5 : ℚ) ≤ x) :
    ∀ (k : ℕ) (sp : List ℕ), 1 ≤ k → tail ≠ [] → sp.length = k + tail.length →
      findJumpTotals sp (List.replicate k 1 ++ tail) = sp.getD (k - 1) 0
  | 0, _, h, _, _ => absurd h (by omega)
  | 1, sp, _, htne, hlen => by
    obtain ⟨t₀, ts, rfl⟩ := List.exists_cons_of_ne_nil htne
    cases sp with
    | nil => exact absurd hlen (by simp only [List.length_nil, List.length_cons]; omega)
    | cons s₀ sp' =>
      obtain ⟨z, zs, hz⟩ :=
        List.exists_cons_of_ne_nil (smoothSuffix_ne_nil (t₀ :: ts) (by simp))
      have hz_lb : (6/5 : ℚ) ≤ z := by
        have := smoothSuffix_lower (6/5) (t₀ :: ts) htail z
          (by rw [hz]; exact List.mem_cons_self z zs)
        exact this
      have htot : List.replicate 1 (1 : ℚ) ++ t₀ :: ts = 1 :: t₀ :: ts := rfl
      have hcond : (209/200 : ℚ) ≤ t₀ / 1 ∧ (28/25 : ℚ) ≤ z / 1 := by
        constructor
        · rw [div_one]
          have := htail t₀ (by simp)
          linarith
        · rw [div_one]; linarith
      unfold findJumpTotals
      rw [htot, smoothSuffix_cons₂, hz, jumpScan_cons, if_pos hcond]
      simp
  | k + 2, sp, _, htne, hlen => by
    cases sp with
    | nil => exact absurd hlen (by simp only [List.length_nil, List.length_cons]; omega)
    | cons s₀ sp' =>
      have e1 : List.replicate (k + 2) (1 : ℚ) ++ tail =
          1 :: (List.replicate (k + 1) 1 ++ tail) := rfl
      have e2 : List.replicate (k + 1) (1 : ℚ) ++ tail =
          1 :: (List.replicate k 1 ++ tail) := rfl
      have hne1 : List.replicate (k + 1) (1 : ℚ) ++ tail ≠ [] := by simp
      obtain ⟨z, zs, hz⟩ := List.exists_cons_of_ne_nil (smoothSuffix_ne_nil _ hne1)
      unfold findJumpTotals
      rw [e1, smoothSuffix_cons 1 _ hne1, hz, e2, jumpScan_cons, if_neg (by norm_num)]
      rw [← e2, ← hz]
      have ih := findJump_step tail htail (k + 1) sp' (by omega) htne
        (by simp only [List.length_cons] at hlen; omega)
      calc jumpScan sp' (List.replicate (k + 1) 1 ++ tail)
            (smoothSuffix (List.replicate (k + 1) 1 ++ tail))
          = findJumpTotals sp' (List.replicate (k + 1) 1 ++ tail) := rfl
        _ = sp'.getD (k + 1 - 1) 0 := ih
        _ = (s₀ :: sp').getD (k + 2 - 1) 0 := by simp

/-- Transient-spike scenario of `find_jump`: totals flat at 1 except for a
single spike of height `v` with `1.045 ≤ v ≤ 1.2` that returns to baseline;
the immediate-ratio threshold fires just before the spike but the
smoothed-suffix threshold fails (`(v+1)/2 ≤ 1.1 < 1.12`), so the scan
returns the sentinel 0. -/
theorem findJump_spike (v : ℚ) (hv1 : (209/200 : ℚ) ≤ v) (hv2 : v ≤ 6/5) :
    ∀ (k m : ℕ) (sp : List ℕ), 1 ≤ k → 1 ≤ m →
      findJumpTotals sp (List.replicate k 1 ++ v :: List.replicate m 1) = 0
  | 0, _, _, h, _ => absurd h (by omega)
  | 1, m, sp, _, hm => by
    obtain ⟨mm, rfl⟩ : ∃ mm, m = mm + 1 := ⟨m - 1, by omega⟩
    have hsm : smoothSuffix (v :: List.replicate (mm + 1) 1) =
        (v * (1/2) + 1 * (1/2)) :: List.replicate (mm + 1) 1 := by
      rw [smoothSuffix_cons v _ (by simp), smoothSuffix_replicate]
      rfl
    cases sp with
    | nil =>
      unfold findJumpTotals
      rfl
    | cons s₀ sp' =>
      have e1 : List.replicate 1 (1 : ℚ) ++ v :: List.replicate (mm + 1) 1 =
          1 :: v :: List.replicate (mm + 1) 1 := rfl
      unfold findJumpTotals
      rw [e1, smoothSuffix_cons 1 _ (by simp), hsm, jumpScan_cons]
      rw [if_neg ?hcond]
      case hcond =>
        rintro ⟨-, h2⟩
        rw [div_one] at h2
        linarith
      rw [← hsm]
      exact jumpScan_spike_tail v hv1 (mm + 1) (by omega) sp'
  | k + 2, m, sp, _, hm => by
    cases sp with
    | nil =>
      unfold findJumpTotals
      rfl
    | cons s₀ sp' =>
      have e1 : List.replicate (k + 2) (1 : ℚ) ++ v :: List.replicate m 1 =
          1 :: (List.replicate (k + 1) 1 ++ v :: List.replicate m 1) := rfl
      have e2 : List.replicate (k + 1) (1 : ℚ) ++ v :: List.replicate m 1 =
          1 :: (List.replicate k 1 ++ v :: List.replicate m 1) := rfl
      have hne1 : List.replicate (k + 1) (1 : ℚ) ++ v :: List.replicate m 1 ≠ [] := by simp
      obtain ⟨z, zs, hz⟩ := List.exists_cons_of_ne_nil (smoothSuffix_ne_nil _ hne1)
      unfold findJumpTotals
      rw [e1, smoothSuffix_cons 1 _ hne1, hz, e2, jumpScan_cons, if_neg (by norm_num)]
      rw [← e2, ← hz]
      exact findJump_spike v hv1 hv2 (k + 1) m sp' (by omega) hm

/-- The scan of `find_jump` returns the spots value at the first position
whose totals satisfy both threshold tests. -/
theorem findJump_first : ∀ (i : ℕ) (sp : List ℕ) (totals : List ℚ),
    totals.length = sp.length → i + 1 < sp.length →
    ((209/200 : ℚ) ≤ totals.getD (i + 1) 0 / totals.getD i 0 ∧
      (28/25 : ℚ) ≤ (smoothSuffix totals).getD (i + 1) 0 / totals.getD i 0) →
    (∀ j, j < i →
      ¬((209/200 : ℚ) ≤ totals.getD (j + 1) 0 / totals.getD j 0 ∧
        (28/25 : ℚ) ≤ (smoothSuffix totals).getD (j + 1) 0 / totals.getD j 0)) →
    findJumpTotals sp totals = sp.getD i 0
  | i, [], _, _, hi, _, _ => by
    exact absurd hi (by simp)
  | i, s₀ :: sp', totals, hlen, hi, hcond, hprev => by
    cases totals with
    | nil => exact absurd hlen (by simp only [List.length_nil, List.length_cons]; omega)
    | cons t ts =>
      cases ts with
      | nil =>
        exact absurd hi
          (by simp only [List.length_nil, List.length_cons] at hlen ⊢
              omega)
      | cons t' ts' =>
        obtain ⟨z, zs, hz⟩ :=
          List.exists_cons_of_ne_nil (smoothSuffix_ne_nil (t' :: ts') (by simp))
        cases i with
        | zero =>
          simp only [smoothSuffix_cons₂, hz, List.getD_cons_succ, List.getD_cons_zero,
            List.headI_cons] at hcond
          unfold findJumpTotals
          rw [smoothSuffix_cons₂, hz, jumpScan_cons, if_pos hcond]
          simp
        | succ i' =>
          have hfront := hprev 0 (by omega)
          simp only [smoothSuffix_cons₂, hz, List.getD_cons_succ, List.getD_cons_zero,
            List.headI_cons] at hfront
          unfold findJumpTotals
          rw [smoothSuffix_cons₂, hz, jumpScan_cons, if_neg hfront, ← hz]
          have hc' : (209/200 : ℚ) ≤ (t' :: ts').getD (i' + 1) 0 / (t' :: ts').getD i' 0 ∧
              (28/25 : ℚ) ≤ (smoothSuffix (t' :: ts')).getD (i' + 1) 0 /
                (t' :: ts').getD i' 0 := by
            simpa only [smoothSuffix_cons₂, List.getD_cons_succ] using hcond
          have hp' : ∀ j, j < i' →
              ¬((209/200 : ℚ) ≤ (t' :: ts').getD (j + 1) 0 / (t' :: ts').getD j 0 ∧
                (28/25 : ℚ) ≤ (smoothSuffix (t' :: ts')).getD (j + 1) 0 /
                  (t' :: ts').getD j 0) := by
            intro j hj
            have := hprev (j + 1) (by omega)
            simpa only [smoothSuffix_cons₂, List.getD_cons_succ] using this
          have ih := findJump_first i' sp' (t' :: ts')
            (by simp only [List.length_cons] at hlen ⊢; omega)
            (by simp only [List.length_cons] at hi ⊢; omega) hc' hp'
          calc jumpScan sp' (t' :: ts') (smoothSuffix (t' :: ts'))
              = findJumpTotals sp' (t' :: ts') := rfl
            _ = sp'.getD i' 0 := ih
            _ = (s₀ :: sp').getD (i' + 1) 0 := by simp

/-- When no position satisfies both threshold tests, the scan of
`find_jump` falls off the end and returns the sentinel 0. -/
theorem findJump_none : ∀ (sp : List ℕ) (totals : List ℚ),
    totals.length = sp.length →
    (∀ i, i + 1 < sp.length →
      ¬((209/200 : ℚ) ≤ totals.getD (i + 1) 0 / totals.getD i 0 ∧
        (28/25 : ℚ) ≤ (smoothSuffix totals).getD (i + 1) 0 / totals.getD i 0)) →
    findJumpTotals sp totals = 0
  | [], totals, hlen, _ => by
    cases totals with
    | nil => rfl
    | cons t ts => exact absurd hlen (by simp)
  | s₀ :: sp', totals, hlen, h => by
    cases totals with
    | nil => exact absurd hlen (by simp only [List.length_nil, List.length_cons]; omega)
    | cons t ts =>
      cases ts with
      | nil =>
        have hsp : sp' = [] := by
          simp only [List.length_cons, List.length_nil] at hlen
          exact List.length_eq_zero.mp (by omega)
        subst hsp
        rfl
      | cons t' ts' =>
        obtain ⟨z, zs, hz⟩ :=
          List.exists_cons_of_ne_nil (smoothSuffix_ne_nil (t' :: ts') (by simp))
        have hfront := h 0 (by simp only [List.length_cons] at hlen ⊢; omega)
        simp only [smoothSuffix_cons₂, hz, List.getD_cons_succ, List.getD_cons_zero,
          List.headI_cons] at hfront
        unfold findJumpTotals
        rw [smoothSuffix_cons₂, hz, jumpScan_cons, if_neg hfront, ← hz]
        have h' : ∀ i, i + 1 < sp'.length →
            ¬((209/200 : ℚ) ≤ (t' :: ts').getD (i + 1) 0 / (t' :: ts').getD i 0 ∧
              (28/25 : ℚ) ≤ (smoothSuffix (t' :: ts')).getD (i + 1) 0 /
                (t' :: ts').getD i 0) := by
          intro i hi
          have := h (i + 1) (by simp only [List.length_cons] at hi ⊢; omega)
          simpa only [smoothSuffix_cons₂, List.getD_cons_succ] using this
        exact findJump_none sp' (t' :: ts')
          (by simp only [List.length_cons] at hlen ⊢; omega) h'

/-- Claim C1: `find_jump` first computes per-spots totals, builds the
smoothed suffix by the backward half-half fold, and returns the first spots
value (scanning smallest to largest) whose successor total is at least
1.045 times its own total and whose smoothed-suffix value one ahead is at
least 1.12 times its own total; on a curve flat at 1 that steps up to at
least 6/5 and stays there it returns the spots value immediately preceding
the step, and a single transient spike of the same height class
(1.045 ≤ v ≤ 6/5) returning to baseline does not trigger it. -/
theorem c1_find_jump :
    (∀ (sp : List ℕ) (measured : ℕ → List ℚ),
      find_jump sp measured = findJumpTotals sp (sp.map fun s => sumDur (measured s))) ∧
    (∀ t : List ℚ, (smoothSuffix t).length = t.length) ∧
    (∀ (t : List ℚ) (i : ℕ), i + 1 < t.length →
      (smoothSuffix t).getD i 0 =
        t.getD i 0 * (1/2) + (smoothSuffix t).getD (i + 1) 0 * (1/2)) ∧
    (∀ (i : ℕ) (sp : List ℕ) (totals : List ℚ),
      totals.length = sp.length → i + 1 < sp.length →
      ((209/200 : ℚ) ≤ totals.getD (i + 1) 0 / totals.getD i 0 ∧
        (28/25 : ℚ) ≤ (smoothSuffix totals).getD (i + 1) 0 / totals.getD i 0) →
      (∀ j, j < i →
        ¬((209/200 : ℚ) ≤ totals.getD (j + 1) 0 / totals.getD j 0 ∧
          (28/25 : ℚ) ≤ (smoothSuffix totals).getD (j + 1) 0 / totals.getD j 0)) →
      findJumpTotals sp totals = sp.getD i 0) ∧
    (∀ tail : List ℚ, (∀ x ∈ tail, (6/5 : ℚ) ≤ x) →
      ∀ (k : ℕ) (sp : List ℕ), 1 ≤ k → tail ≠ [] → sp.length = k + tail.length →
        findJumpTotals sp (List.replicate k 1 ++ tail) = sp.getD (k - 1) 0) ∧
    (∀ v : ℚ, (209/200 : ℚ) ≤ v → v ≤ 6/5 →
      ∀ (k m : ℕ) (sp : List ℕ), 1 ≤ k → 1 ≤ m →
        findJumpTotals sp (List.replicate k 1 ++ v :: List.replicate m 1) = 0) :=
  ⟨fun _ _ => rfl, smoothSuffix_length, smoothSuffix_getD, findJump_first,
   fun tail htail => findJump_step tail htail,
   fun v hv1 hv2 => findJump_spike v hv1 hv2⟩

/-- Witness for claim C1: the scan fires at the first qualifying position
of the totals [1, 2]; the step curve 1, 1, 6/5 yields the spots value
before the step; the spike curve 1, 6/5, 1 yields the sentinel. -/
theorem c1_find_jump_witness :
    findJumpTotals [3, 7] [1, 2] = [3, 7].getD 0 0 ∧
    findJumpTotals [4, 8, 16] (List.replicate 2 1 ++ [(6/5 : ℚ)]) = [4, 8, 16].getD 1 0 ∧
    findJumpTotals [4, 8, 16] (List.replicate 1 1 ++ (6/5 : ℚ) :: List.replicate 1 1) = 0 :=
  ⟨c1_find_jump.2.2.2.1 0 [3, 7] [1, 2] rfl (by norm_num)
      (by constructor <;> norm_num [smoothSuffix])
      (fun j hj => absurd hj (by omega)),
   c1_find_jump.2.2.2.2.1 [(6/5 : ℚ)] (by norm_num) 2 [4, 8, 16] (by norm_num)
      (by simp) rfl,
   c1_find_jump.2.2.2.2.2 (6/5) (by norm_num) le_rfl 1 1 [4, 8, 16] le_rfl le_rfl⟩

/-- Claim C9: when no position satisfies both thresholds `find_jump`
returns the sentinel 0 instead of failing, and the program still prints the
full output line, whose associativity field degenerates to the digit 0
(zero divided by the first returned spots value is zero whatever that
value is). -/
theorem c9_sentinel :
    (∀ (sp : List ℕ) (totals : List ℚ),
      totals.length = sp.length →
      (∀ i, i + 1 < sp.length →
        ¬((209/200 : ℚ) ≤ totals.getD (i + 1) 0 / totals.getD i 0 ∧
          (28/25 : ℚ) ≤ (smoothSuffix totals).getD (i + 1) 0 / totals.getD i 0)) →
      findJumpTotals sp totals = 0) ∧
    (∀ fst cls : ℕ,
      0 / fst = 0 ∧
      mainOutput 0 fst cls =
        "associativity=".toList ++ ['0']
          ++ " cache_size=".toList ++ ['0']
          ++ " cache_line_size=".toList ++ natDigits (cls * slot_bytes) ++ ['\n']) := by
  refine ⟨findJump_none, ?_⟩
  intro fst cls
  refine ⟨Nat.zero_div fst, ?_⟩
  simp [mainOutput, natDigits, Nat.zero_div]

/-- Witness for claim C9: a flat two-point curve triggers nothing, and the
output line of a run with sentinel 0, first spots value 5 and line stride 2
carries the degenerate associativity digit. -/
theorem c9_sentinel_witness :
    findJumpTotals [1, 2] [1, 1] = 0 ∧
    (0 / 5 = 0 ∧
      mainOutput 0 5 2 =
        "associativity=".toList ++ ['0']
          ++ " cache_size=".toList ++ ['0']
          ++ " cache_line_size=".toList ++ natDigits (2 * slot_bytes) ++ ['\n']) :=
  ⟨c9_sentinel.1 [1, 2] [1, 1] rfl
      (fun i hi => by
        have hi0 : i = 0 := by
          simp only [List.length_cons, List.length_nil] at hi
          omega
        subst hi0
        norm_num [smoothSuffix]),
   c9_sentinel.2 5 2⟩

/-- In the forward-chain write loop, every anchor written so far holds the
location of the next anchor. -/
theorem chain_foldl_writes (stride : ℕ) (hs : 1 ≤ stride) (a : ℕ → ℕ) :
    ∀ m k : ℕ, k < m →
      ((List.range m).foldl
        (fun arr i => Function.update arr (i * stride) ((i + 1) * stride)) a) (k * stride) =
        (k + 1) * stride
  | 0, k, hk => absurd hk (by omega)
  | m + 1, k, hk => by
    rw [List.range_succ, List.foldl_append, List.foldl_cons, List.foldl_nil]
    rcases eq_or_ne k m with rfl | hne
    · rw [Function.update_same]
    · have hneq : k * stride ≠ m * stride := fun h =>
        hne (Nat.eq_of_mul_eq_mul_right (by omega) h)
      rw [Function.update_noteq hneq]
      exact chain_foldl_writes stride hs a m k (by omega)

/-- Each of the `spots` anchors of the forward chain holds the location of
the next anchor, the last wrapping to the first. -/
theorem create_forward_chain_anchor (stride spots : ℕ) (hs : 1 ≤ stride) (hp : 1 ≤ spots)
    (a : ℕ → ℕ) (k : ℕ) (hk : k < spots) :
    create_forward_chain stride spots a (k * stride) = ((k + 1) % spots) * stride := by
  unfold create_forward_chain
  have hlast : stride * spots - stride = (spots - 1) * stride := by
    rw [Nat.sub_mul, one_mul, Nat.mul_comm]
  rcases eq_or_ne k (spots - 1) with rfl | hne
  · rw [hlast, Function.update_same]
    have h1 : spots - 1 + 1 = spots := by omega
    rw [h1, Nat.mod_self, Nat.zero_mul]
  · have hneq : k * stride ≠ stride * spots - stride := by
      rw [hlast]
      exact fun h => hne (Nat.eq_of_mul_eq_mul_right (by omega) h)
    rw [Function.update_noteq hneq]
    rw [chain_foldl_writes stride hs a (spots - 1) k (by omega)]
    rw [Nat.mod_eq_of_lt (by omega)]

/-- Following the chain pointers `m` times from anchor `k` lands on anchor
`(k + m) mod spots`. -/
theorem chain_iterate (stride spots : ℕ) (hs : 1 ≤ stride) (hp : 1 ≤ spots) (a : ℕ → ℕ) :
    ∀ m k : ℕ, k < spots →
      (create_forward_chain stride spots a)^[m] (k * stride) = ((k + m) % spots) * stride
  | 0, k, hk => by simp [Nat.mod_eq_of_lt hk]
  | m + 1, k, hk => by
    rw [Function.iterate_succ_apply, create_forward_chain_anchor stride spots hs hp a k hk]
    rw [chain_iterate stride spots hs hp a m ((k + 1) % spots) (Nat.mod_lt _ (by omega))]
    congr 1
    rw [Nat.mod_add_mod]
    congr 1
    omega

/-- Rotation by a fixed offset modulo `spots` permutes the index range. -/
theorem rotate_mod_perm (spots k : ℕ) (hp : 1 ≤ spots) :
    List.Perm ((List.range spots).map fun m => (k + m) % spots) (List.range spots) := by
  have hnd : ((List.range spots).map fun m => (k + m) % spots).Nodup := by
    refine List.Nodup.map_on ?_ (List.nodup_range spots)
    intro m₁ h₁ m₂ h₂ he
    rw [List.mem_range] at h₁ h₂
    have hmod : m₁ % spots = m₂ % spots := Nat.ModEq.add_left_cancel' k he
    rwa [Nat.mod_eq_of_lt h₁, Nat.mod_eq_of_lt h₂] at hmod
  refine (List.perm_ext_iff_of_nodup hnd (List.nodup_range spots)).mpr ?_
  intro x
  simp only [List.mem_map, List.mem_range]
  constructor
  · rintro ⟨m, _, rfl⟩
    exact Nat.mod_lt _ (by omega)
  · intro hx
    refine ⟨(x + spots - k % spots) % spots, Nat.mod_lt _ (by omega), ?_⟩
    have hkm : k % spots < spots := Nat.mod_lt _ (by omega)
    rw [Nat.add_mod_mod, ← Nat.mod_add_mod]
    have e2 : k % spots + (x + spots - k % spots) = x + spots := by omega
    rw [e2, Nat.add_mod_right, Nat.mod_eq_of_lt hx]

/-- Claim C6: after `create_forward_chain(stride, spots)` each anchor holds
the location of the next anchor with the last wrapping to the first;
following next-pointers exactly `spots` times from any live node returns to
it, and the `spots` nodes visited on the way form a permutation of all live
nodes (each visited exactly once). -/
theorem c6_forward_chain (stride spots : ℕ) (a : ℕ → ℕ)
    (hs : 1 ≤ stride) (hp : 1 ≤ spots) (hmem : spots * stride ≤ max_check_mem) :
    (∀ k, k < spots →
      create_forward_chain stride spots a (k * stride) = ((k + 1) % spots) * stride) ∧
    (∀ k, k < spots →
      (create_forward_chain stride spots a)^[spots] (k * stride) = k * stride) ∧
    (∀ k, k < spots →
      List.Perm
        ((List.range spots).map fun m => (create_forward_chain stride spots a)^[m] (k * stride))
        ((List.range spots).map fun j => j * stride)) := by
  refine ⟨fun k hk => create_forward_chain_anchor stride spots hs hp a k hk, ?_, ?_⟩
  · intro k hk
    rw [chain_iterate stride spots hs hp a spots k hk, Nat.add_mod_right,
      Nat.mod_eq_of_lt hk]
  · intro k hk
    have hmap : ((List.range spots).map fun m =>
        (create_forward_chain stride spots a)^[m] (k * stride)) =
        (List.range spots).map ((fun j => j * stride) ∘ fun m => (k + m) % spots) := by
      refine List.map_congr_left ?_
      intro m _
      exact chain_iterate stride spots hs hp a m k hk
    rw [hmap, ← List.map_map]
    exact (rotate_mod_perm spots k hp).map fun j => j * stride

/-- Witness for claim C6 at stride 2, spots 3, starting from node 1. -/
theorem c6_forward_chain_witness :
    (1 ≤ 2 ∧ 1 ≤ 3 ∧ 3 * 2 ≤ max_check_mem) ∧
    create_forward_chain 2 3 (fun _ => 0) (1 * 2) = ((1 + 1) % 3) * 2 ∧
    (create_forward_chain 2 3 (fun _ => 0))^[3] (1 * 2) = 1 * 2 ∧
    List.Perm
      ((List.range 3).map fun m => (create_forward_chain 2 3 (fun _ => 0))^[m] (1 * 2))
      ((List.range 3).map fun j => j * 2) :=
  ⟨⟨by norm_num, by norm_num, by norm_num [max_check_mem]⟩,
   (c6_forward_chain 2 3 (fun _ => 0) (by norm_num) (by norm_num)
      (by norm_num [max_check_mem])).1 1 (by norm_num),
   (c6_forward_chain 2 3 (fun _ => 0) (by norm_num) (by norm_num)
      (by norm_num [max_check_mem])).2.1 1 (by norm_num),
   (c6_forward_chain 2 3 (fun _ => 0) (by norm_num) (by norm_num)
      (by norm_num [max_check_mem])).2.2 1 (by norm_num)⟩

/-- Swapping two anchor slots acts on the anchor-value function as
precomposition with the transposition of the two anchor indices. -/
theorem swap_anchor (stride : ℕ) (hs : 1 ≤ stride) (a : ℕ → ℕ) (i j : ℕ) :
    (fun k => swapSlots a (i * stride) (j * stride) (k * stride)) =
      (fun k => a (k * stride)) ∘ ⇑(Equiv.swap i j) := by
  funext k
  have hinj : ∀ x y : ℕ, x * stride = y * stride → x = y := fun x y h =>
    Nat.eq_of_mul_eq_mul_right (by omega) h
  simp only [Function.comp_apply, swapSlots]
  rcases eq_or_ne k j with rfl | hkj
  · rw [Function.update_same, Equiv.swap_apply_right]
  · have hne : k * stride ≠ j * stride := fun h => hkj (hinj _ _ h)
    rw [Function.update_noteq hne]
    rcases eq_or_ne k i with rfl | hki
    · rw [Function.update_same, Equiv.swap_apply_left]
    · have hne2 : k * stride ≠ i * stride := fun h => hki (hinj _ _ h)
      rw [Function.update_noteq hne2, Equiv.swap_apply_of_ne_of_ne hki hkj]

/-- A transposition of two indices below `n` maps the index range to
itself. -/
theorem swap_map_range (n i j : ℕ) (hi : i < n) (hj : j < n) :
    Multiset.map (⇑(Equiv.swap i j)) (Multiset.range n) = Multiset.range n := by
  have hnd : (Multiset.map (⇑(Equiv.swap i j)) (Multiset.range n)).Nodup :=
    (Multiset.nodup_range n).map (Equiv.swap i j).injective
  apply Multiset.eq_of_le_of_card_le
  · rw [Multiset.le_iff_subset hnd]
    intro x hx
    simp only [Multiset.mem_map, Multiset.mem_range] at hx ⊢
    obtain ⟨y, hy, rfl⟩ := hx
    rcases eq_or_ne y i with rfl | hyi
    · simpa [Equiv.swap_apply_left] using hj
    · rcases eq_or_ne y j with rfl | hyj
      · simpa [Equiv.swap_apply_right] using hi
      · simpa [Equiv.swap_apply_of_ne_of_ne hyi hyj] using hy
  · simp

/-- Swapping two anchor slots of the arena leaves the multiset of anchor
values unchanged. -/
theorem swap_anchor_multiset (stride spots : ℕ) (hs : 1 ≤ stride) (a : ℕ → ℕ)
    (i j : ℕ) (hi : i < spots) (hj : j < spots) :
    (Multiset.range spots).map (fun k => swapSlots a (i * stride) (j * stride) (k * stride)) =
      (Multiset.range spots).map fun k => a (k * stride) := by
  rw [swap_anchor stride hs a i j, ← Multiset.map_map, swap_map_range spots i j hi hj]

/-- Every index the shuffle loop walks is a live anchor index. -/
theorem shuffleIdx_lt (spots : ℕ) : ∀ i ∈ shuffleIdx spots, i < spots := by
  intro i hi
  simp only [shuffleIdx, List.mem_map, List.mem_reverse, List.mem_range] at hi
  obtain ⟨r, hr, rfl⟩ := hi
  omega

/-- The swap partner is never past the current loop index. -/
theorem swapPartner_le (s i : ℕ) : swapPartner s i ≤ i :=
  Nat.lt_succ_iff.mp (Nat.mod_lt _ (Nat.succ_pos i))

/-- Along any prefix of the shuffle loop, the multiset of anchor values is
preserved and every slot outside the anchor set is untouched. -/
theorem shuffle_fold_anchors (stride spots : ℕ) (hs : 1 ≤ stride) :
    ∀ (l : List ℕ) (st : (ℕ → ℕ) × ℕ), (∀ i ∈ l, i < spots) →
      ((Multiset.range spots).map (fun k => (l.foldl (shuffleStep stride) st).1 (k * stride)) =
        (Multiset.range spots).map fun k => st.1 (k * stride)) ∧
      (∀ q, (∀ k, k < spots → q ≠ k * stride) → (l.foldl (shuffleStep stride) st).1 q = st.1 q)
  | [], st, _ => ⟨rfl, fun _ _ => rfl⟩
  | i :: rest, st, h => by
    rw [List.foldl_cons]
    have hi : i < spots := h i (List.mem_cons_self i rest)
    have hpart : swapPartner st.2 i < spots := lt_of_le_of_lt (swapPartner_le st.2 i) hi
    have ih := shuffle_fold_anchors stride spots hs rest (shuffleStep stride st i)
      fun x hx => h x (List.mem_cons_of_mem i hx)
    constructor
    · rw [ih.1]
      exact swap_anchor_multiset stride spots hs st.1 i (swapPartner st.2 i) hi hpart
    · intro q hq
      rw [ih.2 q hq]
      simp only [shuffleStep, swapSlots]
      rw [Function.update_noteq (hq _ hpart), Function.update_noteq (hq _ hi)]

/-- Claim C7: `shuffle(stride, spots)` walks the anchors from the last index
down to 1, swapping each with a generator-chosen index at most equal to it;
the multiset of values in the `spots` anchor slots afterwards equals the
multiset before (an exact permutation, nothing created or lost), and every
other arena slot is unchanged. -/
theorem c7_shuffle (stride spots seed : ℕ) (a : ℕ → ℕ) (hs : 1 ≤ stride) :
    (∀ s i : ℕ, swapPartner s i ≤ i) ∧
    (∀ q, (∀ k, k < spots → q ≠ k * stride) → (shuffle stride spots a seed).1 q = a q) ∧
    (Multiset.range spots).map (fun k => (shuffle stride spots a seed).1 (k * stride)) =
      (Multiset.range spots).map fun k => a (k * stride) := by
  have h := shuffle_fold_anchors stride spots hs (shuffleIdx spots) (a, seed)
    (shuffleIdx_lt spots)
  exact ⟨swapPartner_le, h.2, h.1⟩

/-- Witness for claim C7 at stride 2, spots 3, seed 5: the odd slot 7 is
untouched and the anchor multiset is preserved. -/
theorem c7_shuffle_witness :
    1 ≤ 2 ∧
    (shuffle 2 3 (fun x => x) 5).1 7 = 7 ∧
    (Multiset.range 3).map (fun k => (shuffle 2 3 (fun x => x) 5).1 (k * 2)) =
      (Multiset.range 3).map fun k => (fun x : ℕ => x) (k * 2) :=
  ⟨by norm_num,
   (c7_shuffle 2 3 5 (fun x => x) (by norm_num)).2.1 7 (by intro k _; omega),
   (c7_shuffle 2 3 5 (fun x => x) (by norm_num)).2.2⟩

/-- The anchor values of the forward chain do not depend on the prior arena
contents. -/
theorem chain_anchor_agree (stride spots : ℕ) (hs : 1 ≤ stride) (a₁ a₂ : ℕ → ℕ)
    (k : ℕ) (hk : k < spots) :
    create_forward_chain stride spots a₁ (k * stride) =
      create_forward_chain stride spots a₂ (k * stride) := by
  rw [create_forward_chain_anchor stride spots hs (by omega) a₁ k hk,
    create_forward_chain_anchor stride spots hs (by omega) a₂ k hk]

/-- Two shuffle runs from arenas agreeing on all anchors and from equal
seeds stay in lockstep: equal seeds throughout and equal anchor values. -/
theorem shuffle_fold_agree (stride spots : ℕ) :
    ∀ (l : List ℕ) (st₁ st₂ : (ℕ → ℕ) × ℕ),
      (∀ i ∈ l, i < spots) → st₁.2 = st₂.2 →
      (∀ k, k < spots → st₁.1 (k * stride) = st₂.1 (k * stride)) →
      ((l.foldl (shuffleStep stride) st₁).2 = (l.foldl (shuffleStep stride) st₂).2) ∧
      (∀ k, k < spots →
        (l.foldl (shuffleStep stride) st₁).1 (k * stride) =
          (l.foldl (shuffleStep stride) st₂).1 (k * stride))
  | [], _, _, _, hseed, hanch => ⟨hseed, hanch⟩
  | i :: rest, st₁, st₂, h, hseed, hanch => by
    rw [List.foldl_cons, List.foldl_cons]
    have hi : i < spots := h i (List.mem_cons_self i rest)
    have hpart : swapPartner st₂.2 i < spots := lt_of_le_of_lt (swapPartner_le st₂.2 i) hi
    refine shuffle_fold_agree stride spots rest _ _
      (fun x hx => h x (List.mem_cons_of_mem i hx)) ?_ ?_
    · simp only [shuffleStep, hseed]
    · intro k hk
      simp only [shuffleStep, swapSlots, hseed]
      by_cases h1 : k * stride = swapPartner st₂.2 i * stride
      · rw [h1, Function.update_same, Function.update_same, hanch i hi]
      · rw [Function.update_noteq h1, Function.update_noteq h1]
        by_cases h2 : k * stride = i * stride
        · rw [h2, Function.update_same, Function.update_same, hanch _ hpart]
        · rw [Function.update_noteq h2, Function.update_noteq h2, hanch k hk]

/-- Writes of the half-slot loop extend any agreement between two arenas:
each iteration reads only an anchor and writes the same value to the same
slot in both runs. -/
theorem halfWrite_fold_agree (stride spots : ℕ) :
    ∀ (l : List ℕ) (A₁ A₂ : ℕ → ℕ) (P : ℕ → Prop),
      (∀ k, k < spots → P (k * stride)) →
      (∀ i ∈ l, i < spots) →
      (∀ j, P j → A₁ j = A₂ j) →
      ∀ j, (P j ∨ ∃ i ∈ l, j = i * stride + stride / 2) →
        (l.foldl (halfWrite stride) A₁) j = (l.foldl (halfWrite stride) A₂) j
  | [], _, _, _, _, _, hagree, j, hj => by
    rcases hj with hj | ⟨i, hi, _⟩
    · exact hagree j hj
    · exact absurd hi (List.not_mem_nil i)
  | x :: rest, A₁, A₂, P, hanch, hmem, hagree, j, hj => by
    rw [List.foldl_cons, List.foldl_cons]
    have hx : x < spots := hmem x (List.mem_cons_self x rest)
    have hval : A₁ (x * stride) = A₂ (x * stride) := hagree _ (hanch x hx)
    have hagree' : ∀ j', (P j' ∨ j' = x * stride + stride / 2) →
        halfWrite stride A₁ x j' = halfWrite stride A₂ x j' := by
      intro j' hj'
      simp only [halfWrite]
      rcases eq_or_ne j' (x * stride + stride / 2) with rfl | hne
      · rw [Function.update_same, Function.update_same, hval]
      · rw [Function.update_noteq hne, Function.update_noteq hne]
        rcases hj' with hP | he
        · exact hagree _ hP
        · exact absurd he hne
    refine halfWrite_fold_agree stride spots rest (halfWrite stride A₁ x)
      (halfWrite stride A₂ x) (fun j' => P j' ∨ j' = x * stride + stride / 2)
      (fun k hk => Or.inl (hanch k hk))
      (fun i hi => hmem i (List.mem_cons_of_mem x hi)) hagree' j ?_
    rcases hj with hP | ⟨i, hi, he⟩
    · exact Or.inl (Or.inl hP)
    · rcases List.mem_cons.mp hi with rfl | hi'
      · exact Or.inl (Or.inr he)
      · exact Or.inr ⟨i, hi', he⟩

/-- Writes of the lookbehind rewiring loop extend any agreement between two
arenas: each iteration reads only an anchor and writes the same values to
the same two slots in both runs. -/
theorem lookWrite_fold_agree (stride spots : ℕ) :
    ∀ (l : List ℕ) (A₁ A₂ : ℕ → ℕ) (P : ℕ → Prop),
      (∀ k, k < spots → P (k * stride)) →
      (∀ i ∈ l, i < spots) →
      (∀ j, P j → A₁ j = A₂ j) →
      ∀ j, (P j ∨ ∃ i ∈ l,
          j = ((i + spots - lookbehind_offset) % spots) * stride + stride / 2) →
        (l.foldl (lookWrite stride spots) A₁) j = (l.foldl (lookWrite stride spots) A₂) j
  | [], _, _, _, _, _, hagree, j, hj => by
    rcases hj with hj | ⟨i, hi, _⟩
    · exact hagree j hj
    · exact absurd hi (List.not_mem_nil i)
  | x :: rest, A₁, A₂, P, hanch, hmem, hagree, j, hj => by
    rw [List.foldl_cons, List.foldl_cons]
    have hx : x < spots := hmem x (List.mem_cons_self x rest)
    have hval : A₁ (x * stride) = A₂ (x * stride) := hagree _ (hanch x hx)
    have hagree' : ∀ j', (P j' ∨
        j' = ((x + spots - lookbehind_offset) % spots) * stride + stride / 2) →
        lookWrite stride spots A₁ x j' = lookWrite stride spots A₂ x j' := by
      intro j' hj'
      simp only [lookWrite]
      rcases eq_or_ne j' (x * stride) with rfl | hne0
      · rw [Function.update_same, Function.update_same]
      · rw [Function.update_noteq hne0, Function.update_noteq hne0]
        rcases eq_or_ne j'
            (((x + spots - lookbehind_offset) % spots) * stride + stride / 2) with rfl | hne1
        · rw [Function.update_same, Function.update_same, hval]
        · rw [Function.update_noteq hne1, Function.update_noteq hne1]
          rcases hj' with hP | he
          · exact hagree _ hP
          · exact absurd he hne1
    refine lookWrite_fold_agree stride spots rest (lookWrite stride spots A₁ x)
      (lookWrite stride spots A₂ x)
      (fun j' => P j' ∨ j' = ((x + spots - lookbehind_offset) % spots) * stride + stride / 2)
      (fun k hk => Or.inl (hanch k hk))
      (fun i hi => hmem i (List.mem_cons_of_mem x hi)) hagree' j ?_
    rcases hj with hP | ⟨i, hi, he⟩
    · exact Or.inl (Or.inl hP)
    · rcases List.mem_cons.mp hi with rfl | hi'
      · exact Or.inl (Or.inr he)
      · exact Or.inr ⟨i, hi', he⟩

/-- The lookbehind loop writes every half slot: iteration `(k + 16) mod
spots` targets the half slot of anchor `k` when `spots ≥ 16`. -/
theorem look_cover (spots k : ℕ) (h16 : 16 ≤ spots) (hk : k < spots) :
    ((k + 16) % spots + spots - 16) % spots = k := by
  have h1 : (k + 16) % spots + spots - 16 = (k + 16) % spots + (spots - 16) := by omega
  rw [h1, Nat.mod_add_mod]
  have h2 : k + 16 + (spots - 16) = k + spots := by omega
  rw [h2, Nat.add_mod_right, Nat.mod_eq_of_lt hk]

/-- Claim C8: the Sequence Generator is a deterministic function of its
seed, the Trial Aggregator reseeds it to `spots + iter` before each build,
and two runs with the same (stride, spots, iteration index) — however their
arenas previously differed — write bit-for-bit identical shuffled and
lookbehind patterns: every anchor slot and every half slot agrees. -/
theorem c8_determinism (stride spots iter : ℕ) (a₁ a₂ : ℕ → ℕ)
    (hs : 1 ≤ stride) (h16 : lookbehind_offset ≤ spots) :
    (∀ s₁ s₂ : ℕ, s₁ = s₂ → ∀ n, rngSeq s₁ n = rngSeq s₂ n) ∧
    (∀ k, k < spots →
      (build_shuffled stride spots a₁ (measure_seed spots iter)).1 (k * stride) =
        (build_shuffled stride spots a₂ (measure_seed spots iter)).1 (k * stride) ∧
      (build_shuffled stride spots a₁ (measure_seed spots iter)).1 (k * stride + stride / 2) =
        (build_shuffled stride spots a₂ (measure_seed spots iter)).1
          (k * stride + stride / 2)) ∧
    (∀ k, k < spots →
      build_lookbehind stride spots a₁ (k * stride) =
        build_lookbehind stride spots a₂ (k * stride) ∧
      build_lookbehind stride spots a₁ (k * stride + stride / 2) =
        build_lookbehind stride spots a₂ (k * stride + stride / 2)) := by
  have h16' : 16 ≤ spots := h16
  have hchain : ∀ k, k < spots →
      create_forward_chain stride spots a₁ (k * stride) =
        create_forward_chain stride spots a₂ (k * stride) :=
    fun k hk => chain_anchor_agree stride spots hs a₁ a₂ k hk
  have hrange : ∀ i ∈ List.range spots, i < spots := fun i hi => List.mem_range.mp hi
  refine ⟨fun s₁ s₂ h n => by rw [h], ?_, ?_⟩
  · have hsh := shuffle_fold_agree stride spots (shuffleIdx spots)
      (create_forward_chain stride spots a₁, measure_seed spots iter)
      (create_forward_chain stride spots a₂, measure_seed spots iter)
      (shuffleIdx_lt spots) rfl hchain
    have hagree := halfWrite_fold_agree stride spots (List.range spots)
      (shuffle stride spots (create_forward_chain stride spots a₁) (measure_seed spots iter)).1
      (shuffle stride spots (create_forward_chain stride spots a₂) (measure_seed spots iter)).1
      (fun j => ∃ k', k' < spots ∧ j = k' * stride)
      (fun k' hk' => ⟨k', hk', rfl⟩) hrange
      (by rintro j ⟨k', hk', rfl⟩; exact hsh.2 k' hk')
    intro k hk
    constructor
    · simp only [build_shuffled]
      exact hagree (k * stride) (Or.inl ⟨k, hk, rfl⟩)
    · simp only [build_shuffled]
      exact hagree (k * stride + stride / 2) (Or.inr ⟨k, List.mem_range.mpr hk, rfl⟩)
  · have hagree := lookWrite_fold_agree stride spots (List.range spots)
      (create_forward_chain stride spots a₁) (create_forward_chain stride spots a₂)
      (fun j => ∃ k', k' < spots ∧ j = k' * stride)
      (fun k' hk' => ⟨k', hk', rfl⟩) hrange
      (by rintro j ⟨k', hk', rfl⟩; exact hchain k' hk')
    intro k hk
    constructor
    · simp only [build_lookbehind]
      exact hagree (k * stride) (Or.inl ⟨k, hk, rfl⟩)
    · simp only [build_lookbehind]
      refine hagree (k * stride + stride / 2)
        (Or.inr ⟨(k + 16) % spots, List.mem_range.mpr (Nat.mod_lt _ (by omega)), ?_⟩)
      have hcov : ((k + 16) % spots + spots - lookbehind_offset) % spots = k := by
        simp only [lookbehind_offset]
        exact look_cover spots k h16' hk
      rw [hcov]

/-- Witness for claim C8 at stride 2, spots 16, iteration 0, with two
arenas that disagree everywhere beforehand. -/
theorem c8_determinism_witness :
    (1 ≤ 2 ∧ lookbehind_offset ≤ 16) ∧
    ((build_shuffled 2 16 (fun _ => 0) (measure_seed 16 0)).1 (5 * 2) =
      (build_shuffled 2 16 (fun j => j + 1) (measure_seed 16 0)).1 (5 * 2) ∧
     (build_shuffled 2 16 (fun _ => 0) (measure_seed 16 0)).1 (5 * 2 + 2 / 2) =
      (build_shuffled 2 16 (fun j => j + 1) (measure_seed 16 0)).1 (5 * 2 + 2 / 2)) ∧
    (build_lookbehind 2 16 (fun _ => 0) (5 * 2) =
      build_lookbehind 2 16 (fun j => j + 1) (5 * 2) ∧
     build_lookbehind 2 16 (fun _ => 0) (5 * 2 + 2 / 2) =
      build_lookbehind 2 16 (fun j => j + 1) (5 * 2 + 2 / 2)) :=
  ⟨⟨by norm_num, by norm_num [lookbehind_offset]⟩,
   (c8_determinism 2 16 0 (fun _ => 0) (fun j => j + 1) (by norm_num)
      (by norm_num [lookbehind_offset])).2.1 5 (by norm_num),
   (c8_determinism 2 16 0 (fun _ => 0) (fun j => j + 1) (by norm_num)
      (by norm_num [lookbehind_offset])).2.2 5 (by norm_num)⟩
